import Mathlib

/-!
Shallow embedding of `src/smallsh.c` (a small interactive shell) and proofs
about the natural-language specification's claims.

Conventions of the embedding:
* C strings are `List Char`; the NUL terminator is implicit in the list end.
* `printf`/`perror` output is modelled by the inductive `Msg`, one constructor
  per distinct format string in the source.
* System calls (`open`, `dup2`, `execvp`, `waitpid`, `chdir`) are modelled by
  boolean / option-valued oracles supplied as parameters, so every definition
  stays a total computable function.
* Undefined behaviour in the C source (dereferencing a NULL token pointer) is
  modelled by an `Option` result (`none` = the crash).
-/

namespace SmallSh

/-! ### Decimal rendering of a pid (what `sprintf "%d"` produces for `pid ≥ 0`).
Fuel-based recursion so that the kernel can evaluate it. -/

/-- The character for the low decimal digit of `d`. -/
def digitOf (d : Nat) : Char :=
  match d % 10 with
  | 0 => '0' | 1 => '1' | 2 => '2' | 3 => '3' | 4 => '4'
  | 5 => '5' | 6 => '6' | 7 => '7' | 8 => '8' | _ => '9'

def decimalDigitsAux : Nat → Nat → List Char
  | 0, _ => []
  | fuel + 1, n =>
    if n < 10 then [digitOf n]
    else decimalDigitsAux fuel (n / 10) ++ [digitOf n]

def decimalDigits (n : Nat) : List Char := decimalDigitsAux (n + 1) n

/-- A list of characters free of `'$'`. -/
def noDollar (l : List Char) : Bool := l.all (fun c => !(c == '$'))

/-- A list of characters free of `'%'`. -/
def noPercent (l : List Char) : Bool := l.all (fun c => !(c == '%'))

/-! ### `pidReplacement` (src/smallsh.c lines 96–118)

The C function scans the buffer left to right.  At each position `x` where
the two characters `"$$"` start, it copies the *whole current buffer*,
overwrites that `"$$"` with `"%d"`, and passes the copy to
`sprintf(command, tempInput, pid)` as the **format string** (line 112),
then resumes the scan at `x + 1` over the result.  Because the token text
itself becomes part of the format, a `%` in the token acts as an sprintf
conversion/escape: `"%%"` prints a literal `%` (so the token `50%$$`
becomes `50%d` — the `%` from the token and the injected `%` pair up and
the pid is never consumed), the first lone `%d` consumes the single `pid`
argument, and every other conversion — a second argument-consuming spec,
an invalid spec such as `%5%`, or a trailing `%` — is undefined behaviour,
modelled as `none`.  (The C writes the result back into the same heap
buffer, whose allocation can be too small when the string grows; that
memory-level overflow is below the string abstraction used here.) -/

/-- `sprintf` with exactly one `int` vararg, on the format string alone:
`avail` records whether the argument is still unconsumed. -/
def sprintfD (pid : Nat) : Bool → List Char → Option (List Char)
  | _, [] => some []
  | avail, '%' :: '%' :: rest => (sprintfD pid avail rest).map ('%' :: ·)
  | true, '%' :: 'd' :: rest =>
    (sprintfD pid false rest).map (decimalDigits pid ++ ·)
  | _, '%' :: _ => none
  | avail, c :: rest => (sprintfD pid avail rest).map (c :: ·)

/-- The scan loop of lines 99–117, with the buffer split as
`done ++ todo` where `done.length` is the current index `x`.  On `"$$"` at
the scan position the whole buffer with that `"$$"` replaced by `"%d"` is
formatted by `sprintfD`, and the scan resumes at index `x + 1` of the
result (which may sit inside the inserted digits, or past a prefix that
`"%%"`-collapsing has shifted).  The fuel argument only bounds the number
of iterations; `pidReplacement` supplies more fuel than the loop can ever
use, since each iteration advances the index by one and each of the at
most `length / 2` replacements grows the buffer by less than the digit
count of the pid. -/
def pidReplacementLoop (pid : Nat) : Nat → List Char → List Char → Option (List Char)
  | 0, _, _ => none
  | fuel + 1, done, todo =>
    match todo with
    | [] => some done
    | c :: rest =>
      if c = '$' ∧ rest.head? = some '$' then
        match sprintfD pid true (done ++ '%' :: 'd' :: rest.tail) with
        | none => none
        | some out =>
          pidReplacementLoop pid fuel (out.take (done.length + 1))
            (out.drop (done.length + 1))
      else pidReplacementLoop pid fuel (done ++ [c]) rest

def pidReplacement (pid : Nat) (s : List Char) : Option (List Char) :=
  pidReplacementLoop pid ((s.length + 1) * ((decimalDigits pid).length + 1)) [] s

/-- Specification-side simultaneous expansion: every `"$$"` replaced by the
decimal pid, scanning left to right.  On buffers free of `'%'` this is
exactly what `pidReplacement` computes (proved below); on buffers that
contain `'%'` the two differ, because the C treats the buffer as an
sprintf format string. -/
def expandDD (pid : Nat) : List Char → List Char
  | [] => []
  | [c] => [c]
  | '$' :: '$' :: rest => decimalDigits pid ++ expandDD pid rest
  | c :: rest => c :: expandDD pid rest

/-- Whether the two-character sequence `"$$"` occurs somewhere in the list. -/
def hasDD : List Char → Bool
  | [] => false
  | c :: rest => ((c == '$') && (rest.head? == some '$')) || hasDD rest

/-! ### Tokenization (src/smallsh.c lines 160–202)

`fgets` keeps the trailing newline; `strtok(userInput, "\n")` strips it;
`strtok_r(…, " ", …)` splits on runs of spaces, yielding no empty tokens
(and no token at all for an all-delimiter line). -/

/-- The comment/empty filter of the input loop (line 173):
`strlen(userInput) > 1 && userInput[0] != '#'`. -/
def acceptLine (line : List Char) : Bool :=
  decide (1 < line.length) && !(line.head? == some '#')

/-- Strip the trailing newline that `fgets` stored (line 180). -/
def stripNewline (line : List Char) : List Char :=
  line.takeWhile (fun c => !(c == '\n'))

def splitTokensAux (cur : List Char) : List Char → List (List Char)
  | [] => if cur.isEmpty then [] else [cur.reverse]
  | c :: rest =>
    if c == ' ' then
      if cur.isEmpty then splitTokensAux [] rest
      else cur.reverse :: splitTokensAux [] rest
    else splitTokensAux (c :: cur) rest

/-- `strtok_r` on the delimiter `" "`: whitespace-delimited tokens, no empties. -/
def splitTokens (l : List Char) : List (List Char) := splitTokensAux [] l

/-- `pidReplacement` applied to each token in turn; `none` as soon as one
expansion hits undefined behaviour. -/
def expandTokens (pid : Nat) : List (List Char) → Option (List (List Char))
  | [] => some []
  | t :: ts =>
    match pidReplacement pid t, expandTokens pid ts with
    | some t', some ts' => some (t' :: ts')
    | _, _ => none

/-- Lines 186–202: the first token is copied verbatim (no `pidReplacement`
call, lines 187–190); every later token is passed through `pidReplacement`
(line 199).  An empty token list corresponds to C calling `strlen(NULL)`,
i.e. undefined behaviour: `none`. -/
def processTokens (pid : Nat) : List (List Char) → Option (List (List Char))
  | [] => none
  | t :: ts => (expandTokens pid ts).map (t :: ·)

/-- The whole tokenize-and-expand pipeline applied to one accepted raw line. -/
def getCommandTokens (pid : Nat) (line : List Char) : Option (List (List Char)) :=
  processTokens pid (splitTokens (stripNewline line))

/-! ### Output messages: one constructor per format string in the source. -/

inductive Msg
  /-- `"Background pid %d is done: Exit value %d\n"` (line 139) -/
  | bgDoneExit (pid code : Nat)
  /-- `"Background pid %d is done: Terminated by signal %d\n"` (line 143) -/
  | bgDoneSignal (pid sig : Nat)
  /-- `"Background PID is %d\n"` (line 433) -/
  | backgroundPid (pid : Nat)
  /-- `"Cannot open %s for input\n"` (lines 369 and 397 — the source uses the
  same wording for the output file); the argument is the file token, `none`
  when the C code passes a NULL pointer to `%s`. -/
  | cannotOpen (file : Option (List Char))
  /-- `perror("Unable to reroute stdin to requested file")` (line 376) -/
  | rerouteStdinFailed
  /-- `perror("Unable to reroute stdout to requested file")` (line 404) -/
  | rerouteStdoutFailed
  /-- `perror(cmdLineArgs[0])` after a failed `execvp` (line 414) -/
  | perrorCmd (name : List Char)
  /-- `"exit value %d\n"` (lines 298 and 303) -/
  | exitValue (code : Nat)
  /-- `"terminated by signal %d\n"` (lines 307 and 444) -/
  | termSignal (sig : Nat)
deriving DecidableEq, Repr

/-! ### The SIGTSTP handler (src/smallsh.c lines 258–274) and the mode flag. -/

def enterMessage : String := "\nEntering foreground-only mode (& is now ignored)\n"

def exitMessage : String := "\nExiting foreground-only mode\n"

/-- `int fgFlag = 0;` (line 24): the shell starts in NORMAL mode. -/
def fgFlagInit : Bool := false

/-- The handler returns the new flag value and the notice it writes. -/
def handle_SIGTSTP (fg : Bool) : Bool × String :=
  if fg = false then (true, enterMessage) else (false, exitMessage)

/-- Two consecutive signal deliveries: final flag and the notices in order. -/
def toggleTwice (fg : Bool) : Bool × List String :=
  let r1 := handle_SIGTSTP fg
  let r2 := handle_SIGTSTP r1.1
  (r2.1, [r1.2, r2.2])

/-! ### Background job registration (src/smallsh.c lines 423–435)

The parent scans `bgProcesses[0..49]` for a zero slot and stores the child
pid in the first one found; if none is free the loop simply falls through.
Afterwards it unconditionally prints `"Background PID is %d"`. -/

def insertFirstZero : List Nat → Nat → List Nat
  | [], _ => []
  | s :: rest, pid => if s = 0 then pid :: rest else s :: insertFirstZero rest pid

def registerBg (table : List Nat) (pid : Nat) : List Nat × List Msg :=
  (insertFirstZero table pid, [Msg.backgroundPid pid])

/-- The table as `shellSetUp` builds it: 50 empty (zero) slots. -/
def initialBgTable : List Nat := List.replicate 50 0

/-! ### Redirection / background extraction (src/smallsh.c lines 204–250)

The classification loop walks `cmdLineArgs[0..cmdNumber-1]`.  A token `"<"`
(resp. `">"`) records the *following* token as the input (resp. output) file
and updates `IOstart` by `if (IOstart == 0 || IOstart > x) IOstart = x;`.
A token `"&"` whose successor slot is NULL (i.e. the last token) sets the
background flag and clears its own slot.  After the loop, *only if
`IOstart != 0`*, every slot from `IOstart` on is cleared.  A `"<"` or `">"`
in last position makes C read `strlen(NULL)` — modelled as `none`. -/

structure Command where
  execArgs : List (List Char)
  inputFile : Option (List Char)
  outputFile : Option (List Char)
  bgFlag : Bool
deriving DecidableEq, Repr

structure ExtractState where
  inputFile : Option (List Char)
  outputFile : Option (List Char)
  bgFlag : Bool
  ioStart : Nat
deriving DecidableEq, Repr

/-- `if (IOstart == 0 || IOstart > x) IOstart = x;` (lines 212–213, 224–225). -/
def updIOstart (s x : Nat) : Nat := if s = 0 ∨ x < s then x else s

/-- One pass over the token list; `x` is the absolute index of the head of
`toks` in the original argument array. -/
def classifyAux (x : Nat) (st : ExtractState) : List (List Char) → Option ExtractState
  | [] => some st
  | tok :: rest =>
    if tok = ['<'] then
      match rest.head? with
      | none => none
      | some f =>
        classifyAux (x + 1)
          { st with ioStart := updIOstart st.ioStart x, inputFile := some f } rest
    else if tok = ['>'] then
      match rest.head? with
      | none => none
      | some f =>
        classifyAux (x + 1)
          { st with ioStart := updIOstart st.ioStart x, outputFile := some f } rest
    else if tok = ['&'] ∧ rest = [] then
      classifyAux (x + 1) { st with bgFlag := true } rest
    else
      classifyAux (x + 1) st rest

/-- Lines 204–250 as a whole: classify, then build the vector `execvp` will
see (everything up to the first NULL slot).  A trailing `"&"` slot was
cleared inside the loop; if `IOstart ≠ 0` every slot from `IOstart` on was
cleared after it. -/
def extractCommand (args : List (List Char)) : Option Command :=
  match classifyAux 0 ⟨none, none, false, 0⟩ args with
  | none => none
  | some st =>
    some ⟨if st.ioStart ≠ 0 then (if st.bgFlag then args.dropLast else args).take st.ioStart
          else (if st.bgFlag then args.dropLast else args),
          st.inputFile, st.outputFile, st.bgFlag⟩

/-- Token is one of the two redirection operators. -/
def isOp (t : List Char) : Bool := t == ['<'] || t == ['>']

/-- Absolute position (≥ 1) of the first redirection operator at an absolute
index ≥ 1, scanning a suffix whose head sits at absolute index `x`.  An
operator at absolute index 0 is skipped — exactly what the `IOstart`
update rule does, since assigning `IOstart = 0` leaves the sentinel. -/
def firstOpAbs (x : Nat) : List (List Char) → Option Nat
  | [] => none
  | t :: rest => if isOp t && decide (1 ≤ x) then some x else firstOpAbs (x + 1) rest

/-- Closed-form description of the exec vector the code actually builds:
drop a trailing `"&"`, then truncate at the first `"<"`/`">"` occurring at
a position ≥ 1 (a position-0 operator never truncates). -/
def execVectorSpec (args : List (List Char)) : List (List Char) :=
  match firstOpAbs 0 args with
  | some p => (if args.getLast? == some ['&'] then args.dropLast else args).take p
  | none => if args.getLast? == some ['&'] then args.dropLast else args

/-! ### The child branch of `createNewProcess` (src/smallsh.c lines 346–416) -/

/-- Oracles for the system calls the child makes. -/
structure Sys where
  openRead : List Char → Bool
  openWrite : List Char → Bool
  dup2In : Bool
  dup2Out : Bool
  execOk : Bool

/-- All system calls succeed. -/
def sysAllOk : Sys := ⟨fun _ => true, fun _ => true, true, true, true⟩

inductive ChildEnd
  /-- `execvp` succeeded: the program image was replaced. -/
  | execed
  /-- the child called `exit(code)` before/instead of being replaced. -/
  | exitedWith (code : Nat)
deriving DecidableEq, Repr

structure ChildResult where
  /-- whether the child reset SIGINT to `SIG_DFL` (lines 350–353). -/
  sigintDefault : Bool
  /-- `some f` iff stdin was `dup2`-ed onto an opened `f`; `none` = untouched. -/
  stdinTarget : Option (List Char)
  stdoutTarget : Option (List Char)
  msgs : List Msg
  final : ChildEnd
deriving DecidableEq, Repr

def devNull : List Char := ['/', 'd', 'e', 'v', '/', 'n', 'u', 'l', 'l']

/-- Lines 413–416: `execvp`, and on failure `perror(cmdLineArgs[0]); exit(EXIT_FAILURE)`
(`EXIT_FAILURE = 1`). -/
def childExec (cmd : Command) (sys : Sys) (sig : Bool)
    (stdinT stdoutT : Option (List Char)) : ChildResult :=
  if sys.execOk then ⟨sig, stdinT, stdoutT, [], .execed⟩
  else ⟨sig, stdinT, stdoutT, [Msg.perrorCmd (cmd.execArgs.headD [])], .exitedWith 1⟩

/-- Lines 385–410: output redirection.  Triggered when an output file was
given *or the background flag is set* (`/dev/null` fallback); open failure
prints line 397's message and exits 1, `dup2` failure exits 2. -/
def childOutput (cmd : Command) (sys : Sys) (sig : Bool)
    (stdinT : Option (List Char)) : ChildResult :=
  if cmd.outputFile.isSome || cmd.bgFlag then
    let dst := cmd.outputFile.getD devNull
    if !sys.openWrite dst then
      ⟨sig, stdinT, none, [Msg.cannotOpen cmd.outputFile], .exitedWith 1⟩
    else if !sys.dup2Out then
      ⟨sig, stdinT, none, [Msg.rerouteStdoutFailed], .exitedWith 2⟩
    else childExec cmd sys sig stdinT (some dst)
  else childExec cmd sys sig stdinT none

/-- Lines 346–416: the whole child branch.  SIGINT is reset to default when
running in the foreground **or** when the foreground-only flag is up
(line 350: `bgFlag == 0 || fgFlag == 1`).  Input redirection is triggered
when an input file was given *or the background flag is set*. -/
def childRun (cmd : Command) (fgFlag : Bool) (sys : Sys) : ChildResult :=
  let sig := !cmd.bgFlag || fgFlag
  if cmd.inputFile.isSome || cmd.bgFlag then
    let src := cmd.inputFile.getD devNull
    if !sys.openRead src then
      ⟨sig, none, none, [Msg.cannotOpen cmd.inputFile], .exitedWith 1⟩
    else if !sys.dup2In then
      ⟨sig, none, none, [Msg.rerouteStdinFailed], .exitedWith 2⟩
    else childOutput cmd sys sig (some src)
  else childOutput cmd sys sig none

/-- The parent branch decisions of `createNewProcess` (lines 419–446) plus
the child result: the child is detached (registered in the table, pid
printed) iff `bgFlag == 1 && fgFlag == 0`; otherwise the parent blocks in
`waitpid` and records the status. -/
structure SpawnResult where
  parentWaits : Bool
  registersBg : Bool
  child : ChildResult
deriving DecidableEq, Repr

def createNewProcess (cmd : Command) (fgFlag : Bool) (sys : Sys) : SpawnResult :=
  { parentWaits := !(cmd.bgFlag && !fgFlag)
    registersBg := cmd.bgFlag && !fgFlag
    child := childRun cmd fgFlag sys }

/-! ### Wait-status decoding (glibc `<sys/wait.h>` macros on the raw status). -/

def wTermSig (s : Nat) : Nat := s % 128

def wIfExited (s : Nat) : Bool := s % 128 = 0

def wExitStatus (s : Nat) : Nat := s / 256 % 256

def wIfSignaled (s : Nat) : Bool := s % 128 ≠ 0 && s % 128 ≠ 127

/-- The termination report of a child as the non-blocking reaper can observe
it: either a normal exit code or a terminating signal. -/
inductive PStatus
  | exited (code : Nat)
  | signaled (sig : Nat)
deriving DecidableEq, Repr

/-- Lines 137–144: the message printed for one finished background process. -/
def reapMsg (pid : Nat) : PStatus → Msg
  | .exited c => .bgDoneExit pid c
  | .signaled s => .bgDoneSignal pid s

/-! ### `checkBackgroundProcessTermination` (src/smallsh.c lines 127–150)

For every non-zero slot the function calls `waitpid(pid, &st, WNOHANG)`.
`WNOHANG` makes the call return immediately: `0` when the child is still
running (slot kept), the pid when it terminated (status printed, slot set
to `0`).  The call is modelled by the oracle
`term : Nat → Option PStatus` (`none` = still running). -/

def checkBackgroundProcessTermination (term : Nat → Option PStatus) :
    List Nat → List Nat × List Msg
  | [] => ([], [])
  | p :: rest =>
    if p ≠ 0 then
      match term p with
      | some st =>
        let r := checkBackgroundProcessTermination term rest
        (0 :: r.1, reapMsg p st :: r.2)
      | none =>
        let r := checkBackgroundProcessTermination term rest
        (p :: r.1, r.2)
    else
      let r := checkBackgroundProcessTermination term rest
      (p :: r.1, r.2)

/-! ### The prompt loop of `getCommandLineArguments` (lines 160–175)

Each iteration of `while (invalidInput)` performs, in order: the reap pass,
then the `": "` prompt, then `fgets`; the loop exits when the line passes
`acceptLine`.  We record the observable events of the loop for a given
sequence of lines the user will type. -/

inductive Event
  | reap
  | prompt
deriving DecidableEq, Repr

def readLoopTrace : List (List Char) → List Event
  | [] => []
  | line :: rest =>
    Event.reap :: Event.prompt ::
      (if acceptLine line then [] else readLoopTrace rest)

/-- The trace is a sequence of (reap, prompt) blocks: every prompt is
immediately preceded by exactly one reap invocation. -/
def isReapPromptBlocks : List Event → Bool
  | [] => true
  | Event.reap :: Event.prompt :: rest => isReapPromptBlocks rest
  | _ => false

/-! ### Shell state and the operations that touch it

`struct shell` owns `exitStatus` (raw `waitpid` status of the last
foreground child, initially 0), the background table, and — standing in for
the process-wide working directory changed by `chdir` — `cwd`. -/

structure Shell where
  exitStatus : Nat
  bgProcesses : List Nat
  cwd : List Char
deriving DecidableEq, Repr

/-- The two-way status formatting (lines 296–308), on a raw status value. -/
def statusMsgOf (e : Nat) : Msg :=
  if e = 0 then .exitValue 0
  else if wIfExited e then .exitValue (wExitStatus e)
  else .termSignal (wTermSig e)

/-- `printShellStatus` (lines 295–311): pure formatting of the recorded
status; the shell state is only read. -/
def printShellStatus (s : Shell) : Msg := statusMsgOf s.exitStatus

/-- `changeShellDirectory` (lines 318–327): `chdir(cmdLineArgs[1])` if an
argument was given, else `chdir(getenv("HOME"))`.  The return value of
`chdir` is ignored, so a failed call (unenterable path, or a NULL `HOME`)
leaves the working directory as it was and prints nothing. -/
def changeShellDirectory (canEnter : List Char → Bool) (home : Option (List Char))
    (args : List (List Char)) (s : Shell) : Shell × List Msg :=
  match args.get? 1 with
  | some p => ({ s with cwd := if canEnter p then p else s.cwd }, [])
  | none =>
    match home with
    | some h => ({ s with cwd := if canEnter h then h else s.cwd }, [])
    | none => (s, [])

/-- The built-in `status` as a state operation: prints, changes nothing. -/
def statusOp (s : Shell) : Shell × List Msg := (s, [printShellStatus s])

/-- Background-job registration as a state operation (lines 423–434). -/
def registerOp (pid : Nat) (s : Shell) : Shell × List Msg :=
  ({ s with bgProcesses := insertFirstZero s.bgProcesses pid },
   [Msg.backgroundPid pid])

/-- The reap pass as a state operation (lines 127–150). -/
def reapOp (term : Nat → Option PStatus) (s : Shell) : Shell × List Msg :=
  let r := checkBackgroundProcessTermination term s.bgProcesses
  ({ s with bgProcesses := r.1 }, r.2)

/-- The foreground path of the parent (lines 438–446):
`waitpid(childPID, &shell->exitStatus, 0)` stores the raw status, and a
signal-terminated child is reported immediately. -/
def waitForegroundOp (status : Nat) (s : Shell) : Shell × List Msg :=
  ({ s with exitStatus := status },
   if wIfSignaled status then [.termSignal (wTermSig status)] else [])

/-- The operations between two foreground commands that claim C9 is about. -/
inductive NonFgOp
  | statusCmd
  | cd (canEnter : List Char → Bool) (home : Option (List Char)) (args : List (List Char))
  | registerBgJob (pid : Nat)
  | reap (term : Nat → Option PStatus)

def applyNonFg : NonFgOp → Shell → Shell
  | .statusCmd, s => (statusOp s).1
  | .cd canEnter home args, s => (changeShellDirectory canEnter home args s).1
  | .registerBgJob pid, s => (registerOp pid s).1
  | .reap term, s => (reapOp term s).1

/-! ## Helper lemmas about `$$`-expansion -/

theorem digitOf_beq_dollar (d : Nat) : (digitOf d == '$') = false := by
  unfold digitOf
  split <;> decide

theorem noDollar_decimalDigitsAux (fuel n : Nat) :
    noDollar (decimalDigitsAux fuel n) = true := by
  induction fuel generalizing n with
  | zero => rfl
  | succ fuel ih =>
    unfold decimalDigitsAux
    split
    · simp [noDollar, digitOf_beq_dollar]
    · have h := ih (n / 10)
      simp only [noDollar, List.all_append, Bool.and_eq_true] at h ⊢
      exact ⟨h, by simp [digitOf_beq_dollar]⟩

theorem noDollar_decimalDigits (n : Nat) : noDollar (decimalDigits n) = true :=
  noDollar_decimalDigitsAux _ _

theorem hasDD_cons (x : Char) (l : List Char) :
    hasDD (x :: l) = (((x == '$') && (l.head? == some '$')) || hasDD l) := rfl

theorem hasDD_append_noDollar (a b : List Char) (h : noDollar a = true) :
    hasDD (a ++ b) = hasDD b := by
  induction a with
  | nil => rfl
  | cons x a ih =>
    simp only [noDollar, List.all_cons, Bool.and_eq_true, Bool.not_eq_true'] at h
    rw [List.cons_append, hasDD_cons, h.1]
    simpa using ih h.2

/-- The replacement step on a recognized `"$$"`. -/
theorem expandDD_dd (pid : Nat) (l : List Char) :
    expandDD pid ('$' :: '$' :: l) = decimalDigits pid ++ expandDD pid l := rfl

theorem expandDD_singl (pid : Nat) (c : Char) :
    expandDD pid [c] = [c] := by
  rw [expandDD.eq_def]
  split <;> simp_all

/-- The skip step when the position does not start a `"$$"`. -/
theorem expandDD_cons₂ (pid : Nat) (x y : Char) (l : List Char)
    (h : ¬(x = '$' ∧ y = '$')) :
    expandDD pid (x :: y :: l) = x :: expandDD pid (y :: l) := by
  rw [expandDD.eq_def]
  split <;> simp_all

theorem expandDD_head (pid : Nat) (l : List Char)
    (h : (expandDD pid l).head? = some '$') : l.head? = some '$' := by
  cases l with
  | nil => simp [expandDD] at h
  | cons c rest =>
    cases rest with
    | nil => rwa [expandDD_singl] at h
    | cons y l' =>
      by_cases hc : c = '$' ∧ y = '$'
      · simp [hc.1]
      · rw [expandDD_cons₂ pid c y l' hc] at h
        exact h

/-- Expansion never rewrites a string containing no `"$$"` (in particular a
single unmatched trailing `'$'` is left untouched). -/
theorem expandDD_no_dd (pid : Nat) (l : List Char) (h : hasDD l = false) :
    expandDD pid l = l := by
  induction l using expandDD.induct pid with
  | case1 => rfl
  | case2 c => exact expandDD_singl pid c
  | case3 rest ih =>
    exfalso
    rw [hasDD_cons] at h
    simp at h
  | case4 c rest h1 h2 ih =>
    cases rest with
    | nil => exact absurd rfl h1
    | cons y l' =>
      have hcond : ¬(c = '$' ∧ y = '$') := fun hp => h2 l' hp.1 (by rw [hp.2])
      rw [hasDD_cons] at h
      rw [expandDD_cons₂ pid c y l' hcond, ih (by
        rcases Bool.or_eq_false_iff.mp h with ⟨-, h'⟩
        exact h')]

/-- After expansion no occurrence of `"$$"` is left: every occurrence got
replaced. -/
theorem hasDD_expandDD (pid : Nat) (l : List Char) :
    hasDD (expandDD pid l) = false := by
  induction l using expandDD.induct pid with
  | case1 => rfl
  | case2 c => rw [expandDD_singl]; simp [hasDD]
  | case3 rest ih =>
    rw [expandDD_dd, hasDD_append_noDollar _ _ (noDollar_decimalDigits pid)]
    exact ih
  | case4 c rest h1 h2 ih =>
    cases rest with
    | nil => exact absurd rfl h1
    | cons y l' =>
      have hcond : ¬(c = '$' ∧ y = '$') := fun hp => h2 l' hp.1 (by rw [hp.2])
      rw [expandDD_cons₂ pid c y l' hcond, hasDD_cons, ih]
      by_cases hc : c = '$'
      · have hy : y ≠ '$' := fun hy => h2 l' hc (by rw [hy])
        have hh : ((expandDD pid (y :: l')).head? == some '$') = false := by
          cases hhd : ((expandDD pid (y :: l')).head? == some '$')
          · rfl
          · exfalso
            have := expandDD_head pid (y :: l') (by simpa using hhd)
            simp only [List.head?, Option.some.injEq] at this
            exact hy this
        simp [hh]
      · simp [hc]

/-- Each `"$$"` occurrence is replaced by the decimal pid, the same pid at
every occurrence: peeling off the first occurrence. -/
theorem expandDD_decompose (pid : Nat) (pre post : List Char)
    (hdd : hasDD pre = false) (hlast : pre.getLast? ≠ some '$') :
    expandDD pid (pre ++ '$' :: '$' :: post) =
      pre ++ decimalDigits pid ++ expandDD pid post := by
  induction pre with
  | nil => simpa using expandDD_dd pid post
  | cons x pre ih =>
    cases pre with
    | nil =>
      have hx : x ≠ '$' := by
        simp only [List.getLast?_singleton, ne_eq, Option.some.injEq] at hlast
        exact hlast
      rw [List.cons_append, List.nil_append,
        expandDD_cons₂ pid x '$' ('$' :: post) (fun hp => hx hp.1),
        expandDD_dd]
      simp
    | cons y pre' =>
      rw [hasDD_cons] at hdd
      rcases Bool.or_eq_false_iff.mp hdd with ⟨hpair, hdd'⟩
      have hcond : ¬(x = '$' ∧ y = '$') := by
        intro hp
        rw [hp.1, hp.2] at hpair
        simp at hpair
      have hlast' : (y :: pre').getLast? ≠ some '$' := by
        rwa [List.getLast?_cons_cons] at hlast
      rw [List.cons_append, List.cons_append,
        expandDD_cons₂ pid x y (pre' ++ '$' :: '$' :: post) (by
          intro hp
          exact hcond hp),
        ← List.cons_append]
      rw [ih hdd' hlast']
      simp

end SmallSh

namespace SmallSh

/-! ## Helper lemmas about the faithful `pidReplacement` loop -/

theorem digitOf_beq_percent (d : Nat) : (digitOf d == '%') = false := by
  unfold digitOf
  split <;> decide

theorem noPercent_decimalDigitsAux (fuel n : Nat) :
    noPercent (decimalDigitsAux fuel n) = true := by
  induction fuel generalizing n with
  | zero => rfl
  | succ fuel ih =>
    unfold decimalDigitsAux
    split
    · simp [noPercent, digitOf_beq_percent]
    · have h := ih (n / 10)
      simp only [noPercent, List.all_append, Bool.and_eq_true] at h ⊢
      exact ⟨h, by simp [digitOf_beq_percent]⟩

theorem noPercent_decimalDigits (n : Nat) : noPercent (decimalDigits n) = true :=
  noPercent_decimalDigitsAux _ _

theorem decimalDigits_ne_nil (n : Nat) : decimalDigits n ≠ [] := by
  unfold decimalDigits decimalDigitsAux
  split <;> simp

theorem count_dollar_eq_zero (l : List Char) (h : noDollar l = true) :
    l.count '$' = 0 := by
  rw [List.count_eq_zero]
  intro hmem
  simp only [noDollar, List.all_eq_true] at h
  have := h '$' hmem
  simp at this

/-- Skip step of `expandDD`, uniform over the tail shape. -/
theorem expandDD_cons_not_pair (pid : Nat) (c : Char) (rest : List Char)
    (h : ¬(c = '$' ∧ rest.head? = some '$')) :
    expandDD pid (c :: rest) = c :: expandDD pid rest := by
  rcases rest with - | ⟨y, l⟩
  · exact expandDD_singl pid c
  · exact expandDD_cons₂ pid c y l (fun hp => h ⟨hp.1, by rw [hp.2]; rfl⟩)

theorem expandDD_append_noDollar (pid : Nat) : ∀ (a b : List Char),
    noDollar a = true → expandDD pid (a ++ b) = a ++ expandDD pid b := by
  intro a
  induction a with
  | nil => intro b _; rfl
  | cons x a ih =>
    intro b h
    simp only [noDollar, List.all_cons, Bool.and_eq_true, Bool.not_eq_true'] at h
    have hx : x ≠ '$' := by simpa using h.1
    rw [List.cons_append, expandDD_cons_not_pair pid x (a ++ b) (fun hp => hx hp.1),
      ih b (by simpa [noDollar] using h.2)]
    rfl

/-- Literal copy of a non-`%` character by the format interpreter. -/
theorem sprintfD_cons_ne (pid : Nat) (avail : Bool) (c : Char) (rest : List Char)
    (h : c ≠ '%') :
    sprintfD pid avail (c :: rest) = (sprintfD pid avail rest).map (c :: ·) := by
  rw [sprintfD.eq_def]
  split <;> simp_all

/-- A format without `%` is printed verbatim. -/
theorem sprintfD_noPercent (pid : Nat) : ∀ (l : List Char) (avail : Bool),
    noPercent l = true → sprintfD pid avail l = some l := by
  intro l
  induction l with
  | nil => intro avail _; cases avail <;> rfl
  | cons c rest ih =>
    intro avail h
    simp only [noPercent, List.all_cons, Bool.and_eq_true, Bool.not_eq_true'] at h
    have hc : c ≠ '%' := by simpa using h.1
    rw [sprintfD_cons_ne pid avail c rest hc, ih avail (by simpa [noPercent] using h.2)]
    rfl

/-- The defined `sprintf` case the scan loop relies on: a `%`-free prefix,
the injected `%d`, and a `%`-free suffix. -/
theorem sprintfD_insert (pid : Nat) : ∀ (pre suffix : List Char),
    noPercent pre = true → noPercent suffix = true →
    sprintfD pid true (pre ++ '%' :: 'd' :: suffix) =
      some (pre ++ decimalDigits pid ++ suffix) := by
  intro pre
  induction pre with
  | nil =>
    intro suffix _ hs
    show (sprintfD pid false suffix).map (decimalDigits pid ++ ·) = _
    rw [sprintfD_noPercent pid suffix false hs]
    rfl
  | cons c pre ih =>
    intro suffix h hs
    simp only [noPercent, List.all_cons, Bool.and_eq_true, Bool.not_eq_true'] at h
    have hc : c ≠ '%' := by simpa using h.1
    rw [List.cons_append, sprintfD_cons_ne pid true c _ hc,
      ih suffix (by simpa [noPercent] using h.2) hs]
    simp

theorem pidReplacementLoop_cons (pid fuel : Nat) (done : List Char) (c : Char)
    (rest : List Char) :
    pidReplacementLoop pid (fuel + 1) done (c :: rest) =
      if c = '$' ∧ rest.head? = some '$' then
        match sprintfD pid true (done ++ '%' :: 'd' :: rest.tail) with
        | none => none
        | some out =>
          pidReplacementLoop pid fuel (out.take (done.length + 1))
            (out.drop (done.length + 1))
      else pidReplacementLoop pid fuel (done ++ [c]) rest := rfl

/-- A buffer containing no `"$$"` from the scan position on is returned
unchanged: `sprintf` is never invoked. -/
theorem pidReplacementLoop_no_dd (pid : Nat) : ∀ (fuel : Nat) (done todo : List Char),
    hasDD todo = false → todo.length < fuel →
    pidReplacementLoop pid fuel done todo = some (done ++ todo) := by
  intro fuel
  induction fuel with
  | zero => intro done todo _ hf; omega
  | succ fuel ih =>
    intro done todo ht hf
    rcases todo with - | ⟨c, rest⟩
    · simp [pidReplacementLoop]
    · rw [pidReplacementLoop_cons]
      rw [hasDD_cons] at ht
      rcases Bool.or_eq_false_iff.mp ht with ⟨hpair, hrest⟩
      have hnp : ¬(c = '$' ∧ rest.head? = some '$') := by
        intro hp
        rw [hp.1, hp.2] at hpair
        simp at hpair
      rw [if_neg hnp,
        ih (done ++ [c]) rest hrest (by simp only [List.length_cons] at hf; omega)]
      simp

/-- On a `%`-free buffer the faithful scan loop computes exactly the
simultaneous expansion `expandDD` of the un-scanned part. -/
theorem pidReplacementLoop_noPercent (pid : Nat) : ∀ (fuel : Nat) (done todo : List Char),
    noPercent done = true → noPercent todo = true →
    todo.length + todo.count '$' * (decimalDigits pid).length < fuel →
    pidReplacementLoop pid fuel done todo = some (done ++ expandDD pid todo) := by
  intro fuel
  induction fuel with
  | zero => intro done todo _ _ hf; omega
  | succ fuel ih =>
    intro done todo hd ht hf
    rcases todo with - | ⟨c, rest⟩
    · simp [pidReplacementLoop, expandDD]
    · rw [pidReplacementLoop_cons]
      by_cases hpair : c = '$' ∧ rest.head? = some '$'
      · obtain ⟨rfl, hh⟩ := hpair
        rcases rest with - | ⟨c2, suffix⟩
        · cases hh
        · obtain rfl : c2 = '$' := by simpa using hh
          rw [if_pos ⟨rfl, rfl⟩]
          simp only [noPercent, List.all_cons, Bool.and_eq_true] at ht
          have hsuf : noPercent suffix = true := ht.2.2
          have hdigs := noPercent_decimalDigits pid
          have hdigsD := noDollar_decimalDigits pid
          obtain ⟨dh, dt, hdig⟩ : ∃ dh dt, decimalDigits pid = dh :: dt := by
            rcases hD : decimalDigits pid with - | ⟨dh, dt⟩
            · exact absurd hD (decimalDigits_ne_nil pid)
            · exact ⟨dh, dt, rfl⟩
          rw [show ('$' :: suffix : List Char).tail = suffix from rfl,
            sprintfD_insert pid done suffix hd hsuf]
          rw [hdig] at hdigs hdigsD
          simp only [noPercent, noDollar, List.all_cons, Bool.and_eq_true] at hdigs hdigsD
          have htake : (done ++ decimalDigits pid ++ suffix).take (done.length + 1) =
              done ++ [dh] := by
            rw [List.append_assoc, hdig]
            have := @List.take_append Char done (dh :: dt ++ suffix) 1
            simpa using this
          have hdrop : (done ++ decimalDigits pid ++ suffix).drop (done.length + 1) =
              dt ++ suffix := by
            rw [List.append_assoc, hdig]
            have := @List.drop_append Char done (dh :: dt ++ suffix) 1
            simp only [List.drop_succ_cons, List.drop_zero] at this
            exact this
          simp only [htake, hdrop]
          have hdtD : noDollar dt = true := by
            simp [noDollar, hdigsD.2]
          rw [ih (done ++ [dh]) (dt ++ suffix)
            (by
              simp only [noPercent, List.all_append, List.all_cons, List.all_nil,
                Bool.and_eq_true] at hd ⊢
              exact ⟨hd, hdigs.1, trivial⟩)
            (by
              simp only [noPercent, List.all_append, Bool.and_eq_true] at hsuf ⊢
              exact ⟨by simpa [noPercent] using hdigs.2, hsuf⟩)
            (by
              have hlen : dt.length + 1 = (decimalDigits pid).length := by
                rw [hdig]; rfl
              have hcnt : (dt ++ suffix).count '$' = suffix.count '$' := by
                rw [List.count_append, count_dollar_eq_zero dt hdtD, Nat.zero_add]
              have hcnt2 : (('$' : Char) :: '$' :: suffix).count '$' =
                  suffix.count '$' + 2 := by
                rw [List.count_cons, List.count_cons]
                simp
              rw [List.length_append, hcnt]
              rw [List.length_cons, List.length_cons, hcnt2] at hf
              have hexp : (suffix.count '$' + 2) * (decimalDigits pid).length =
                  suffix.count '$' * (decimalDigits pid).length +
                    2 * (decimalDigits pid).length := by ring
              rw [hexp] at hf
              omega)]
          rw [expandDD_dd, expandDD_append_noDollar pid dt suffix hdtD, hdig]
          simp
      · rw [if_neg hpair]
        simp only [noPercent, List.all_cons, Bool.and_eq_true] at ht
        rw [ih (done ++ [c]) rest
          (by
            simp only [noPercent, List.all_append, List.all_cons, List.all_nil,
              Bool.and_eq_true] at hd ⊢
            exact ⟨hd, ht.1, trivial⟩)
          ht.2
          (by
            have hcle : rest.count '$' * (decimalDigits pid).length ≤
                (c :: rest).count '$' * (decimalDigits pid).length :=
              Nat.mul_le_mul_right _ (by rw [List.count_cons]; omega)
            rw [List.length_cons] at hf
            omega)]
        rw [expandDD_cons_not_pair pid c rest hpair]
        simp

/-- `pidReplacement` computes `expandDD` on `%`-free strings (the default
fuel is sufficient). -/
theorem pidReplacement_noPercent (pid : Nat) (s : List Char)
    (h : noPercent s = true) :
    pidReplacement pid s = some (expandDD pid s) := by
  unfold pidReplacement
  refine pidReplacementLoop_noPercent pid _ [] s rfl h ?_
  have hc : s.count '$' * (decimalDigits pid).length ≤
      s.length * (decimalDigits pid).length :=
    Nat.mul_le_mul_right _ (List.count_le_length _ _)
  have h2 : (s.length + 1) * ((decimalDigits pid).length + 1) =
      s.length * (decimalDigits pid).length + s.length +
        (decimalDigits pid).length + 1 := by ring
  omega

/-- A string without `"$$"` is returned unchanged, `%`s or not. -/
theorem pidReplacement_no_dd (pid : Nat) (s : List Char) (h : hasDD s = false) :
    pidReplacement pid s = some s := by
  unfold pidReplacement
  have hfuel : s.length < (s.length + 1) * ((decimalDigits pid).length + 1) := by
    have := Nat.le_mul_of_pos_right (m := (decimalDigits pid).length + 1)
      (s.length + 1) (by omega)
    omega
  simpa using pidReplacementLoop_no_dd pid _ [] s h hfuel

theorem expandTokens_noPercent (pid : Nat) : ∀ (ts : List (List Char)),
    (∀ tok ∈ ts, noPercent tok = true) →
    expandTokens pid ts = some (ts.map (expandDD pid)) := by
  intro ts
  induction ts with
  | nil => intro _; rfl
  | cons t ts ih =>
    intro h
    simp only [expandTokens]
    rw [pidReplacement_noPercent pid t (h t (by simp)),
      ih (fun tok hm => h tok (by simp [hm]))]
    simp

/-! ## Claim C1 -/

/-- C1 counterexample: on the raw line `"e$$ a$$\n"` (shell pid 7) the
second token is expanded but the first token — the command name — still
contains `$$`; moreover on the token `50%$$` the C's sprintf treats the
token's `%` as an escape, producing `50%d` with the pid never substituted
— two independent violations of "every occurrence in every token is
replaced and no other substring is altered". -/
theorem getCommandTokens_first_token_unexpanded :
    getCommandTokens 7 ['e', '$', '$', ' ', 'a', '$', '$', '\n'] =
      some [['e', '$', '$'], ['a', '7']] ∧
    hasDD ['e', '$', '$'] = true ∧
    pidReplacement 7 ['5', '0', '%', '$', '$'] = some ['5', '0', '%', 'd'] ∧
    ['5', '0', '%', 'd'] ≠ ['5', '0', '%'] ++ decimalDigits 7 := by decide

/-- C1 (amended): the first token (the command name) is copied without any
expansion; for every later token that contains no `%`, every occurrence of
`$$` is replaced by the decimal pid of the shell (the same pid at every
occurrence, no other substring altered, no `$$` left); any token without a
`$$` — in particular one ending in a single unmatched `$` — is left
untouched, `%`s included, since sprintf is only invoked on a found `$$`;
tokens that combine `%` with `$$` go through sprintf format processing
instead (`%` acts as a conversion/escape, undefined behaviour in many
cases). -/
theorem pidExpansion_amended :
    (∀ (pid : Nat) (t : List Char) (ts : List (List Char)),
      (∀ tok ∈ ts, noPercent tok = true) →
      processTokens pid (t :: ts) = some (t :: ts.map (expandDD pid))) ∧
    (∀ (pid : Nat) (s : List Char), hasDD s = false →
      pidReplacement pid s = some s) ∧
    (∀ (pid : Nat) (s : List Char), noPercent s = true →
      pidReplacement pid s = some (expandDD pid s) ∧
      hasDD (expandDD pid s) = false) ∧
    (∀ (pid : Nat) (pre post : List Char), noPercent pre = true →
      noPercent post = true → hasDD pre = false → pre.getLast? ≠ some '$' →
      pidReplacement pid (pre ++ '$' :: '$' :: post) =
        some (pre ++ decimalDigits pid ++ expandDD pid post)) := by
  refine ⟨?_, pidReplacement_no_dd, ?_, ?_⟩
  · intro pid t ts h
    simp only [processTokens]
    rw [expandTokens_noPercent pid ts h]
    rfl
  · intro pid s h
    exact ⟨pidReplacement_noPercent pid s h, hasDD_expandDD pid s⟩
  · intro pid pre post hpre hpost hdd hlast
    have hall : noPercent (pre ++ '$' :: '$' :: post) = true := by
      simp only [noPercent, List.all_append, List.all_cons, Bool.and_eq_true] at hpre hpost ⊢
      exact ⟨hpre, by decide, by decide, hpost⟩
    rw [pidReplacement_noPercent pid _ hall, expandDD_decompose pid pre post hdd hlast]

/-- Witness for the hypotheses of `pidExpansion_amended` at concrete input. -/
theorem pidExpansion_amended_witness :
    pidReplacement 7 ['x', '$'] = some ['x', '$'] ∧
    pidReplacement 7 (['a'] ++ '$' :: '$' :: ['b']) =
      some (['a'] ++ decimalDigits 7 ++ expandDD 7 ['b']) :=
  ⟨pidExpansion_amended.2.1 7 ['x', '$'] (by decide),
   pidExpansion_amended.2.2.2 7 ['a'] ['b'] (by decide) (by decide) (by decide)
     (by decide)⟩

/-! ## Claim C2 -/

/-- C2: with all 50 table slots occupied, registering a 51st background
process leaves the table unchanged — the new pid is tracked nowhere — and
the only output is the ordinary `"Background PID is %d"` notice: no
capacity-exceeded error is reported, the job is silently dropped from
tracking. -/
theorem registerBg_full_table_silent_drop :
    registerBg (List.replicate 50 1) 77 =
      (List.replicate 50 1, [Msg.backgroundPid 77]) ∧
    77 ∉ (registerBg (List.replicate 50 1) 77).1 := by decide

/-! ## Claim C3 -/

/-- C3 counterexample: a failed redirection-target open makes the child
exit with status 1, and a failed `execvp` also makes it exit with status 1
(`EXIT_FAILURE`) — the two failure classes are NOT distinguishable by exit
status. -/
theorem open_and_exec_failure_share_status :
    (childRun ⟨[['l', 's']], some ['f'], none, false⟩ false
        ⟨fun _ => false, fun _ => true, true, true, true⟩).final =
      ChildEnd.exitedWith 1 ∧
    (childRun ⟨[['l', 's']], none, none, false⟩ false
        ⟨fun _ => true, fun _ => true, true, true, false⟩).final =
      ChildEnd.exitedWith 1 := by
  constructor <;> rfl

/-- C3 (amended): a redirection-target open failure terminates the child
with status 1 before program replacement is attempted (the only output is
the open-failure message, no `execvp` diagnostics), and a program-resolution
failure reports the failing command name and terminates the child with the
same nonzero status 1 — the two failure classes share one exit status. -/
theorem childFailure_statuses_amended :
    (∀ (cmd : Command) (fg : Bool) (sys : Sys) (f : List Char),
      cmd.inputFile = some f → sys.openRead f = false →
      childRun cmd fg sys =
        ⟨!cmd.bgFlag || fg, none, none, [Msg.cannotOpen (some f)],
         .exitedWith 1⟩) ∧
    (∀ (cmd : Command) (fg : Bool) (sys : Sys),
      (∀ g, sys.openRead g = true) → (∀ g, sys.openWrite g = true) →
      sys.dup2In = true → sys.dup2Out = true → sys.execOk = false →
      (childRun cmd fg sys).final = .exitedWith 1 ∧
      (childRun cmd fg sys).msgs = [Msg.perrorCmd (cmd.execArgs.headD [])]) := by
  constructor
  · intro cmd fg sys f hf hopen
    unfold childRun
    simp [hf, hopen]
  · intro cmd fg sys hr hw hd1 hd2 hex
    unfold childRun childOutput childExec
    simp only [hr, hw, hd1, hd2, hex, Bool.not_true, Bool.not_false,
      Bool.false_eq_true, if_false, if_true]
    constructor <;> (split <;> split <;> rfl)

/-- Witness for the hypotheses of `childFailure_statuses_amended`. -/
theorem childFailure_statuses_amended_witness :
    childRun ⟨[['l', 's']], some ['f'], none, false⟩ false
        ⟨fun _ => false, fun _ => true, true, true, true⟩ =
      ⟨true, none, none, [Msg.cannotOpen (some ['f'])], .exitedWith 1⟩ ∧
    (childRun ⟨[['c']], none, none, false⟩ false
        ⟨fun _ => true, fun _ => true, true, true, false⟩).final =
      .exitedWith 1 :=
  ⟨childFailure_statuses_amended.1 _ false _ ['f'] rfl rfl,
   (childFailure_statuses_amended.2 ⟨[['c']], none, none, false⟩ false _
      (fun _ => rfl) (fun _ => rfl) rfl rfl rfl).1⟩

/-! ## Claim C4 -/

/-- C4 counterexample: a background-requested command in foreground-only
mode has its standard input redirected to `/dev/null` even though no input
file was given, whereas the same command without the background request
leaves standard input untouched — so the downgrade is not an exact
foreground execution. -/
theorem fgOnly_background_still_null_redirected :
    (createNewProcess ⟨[['l', 's']], none, none, true⟩ true sysAllOk).child.stdinTarget =
      some devNull ∧
    (createNewProcess ⟨[['l', 's']], none, none, false⟩ true sysAllOk).child.stdinTarget =
      none := by
  constructor <;> rfl

/-- C4 (amended): in foreground-only mode a background request is
downgraded as far as waiting and signals go — the parent blocks on the
child (recording its status) instead of registering it, and the child
restores the default interrupt disposition — but the null-device fallback
is still applied: with no explicit redirection file, standard input and
standard output are both redirected to `/dev/null`, because the redirection
code consults the background-request flag, not the downgraded mode. -/
theorem fgOnly_downgrade_amended :
    ∀ (args : List (List Char)) (inF outF : Option (List Char)) (sys : Sys),
      (∀ g, sys.openRead g = true) → (∀ g, sys.openWrite g = true) →
      sys.dup2In = true → sys.dup2Out = true →
      (createNewProcess ⟨args, inF, outF, true⟩ true sys).parentWaits = true ∧
      (createNewProcess ⟨args, inF, outF, true⟩ true sys).registersBg = false ∧
      (createNewProcess ⟨args, inF, outF, true⟩ true sys).child.sigintDefault = true ∧
      (createNewProcess ⟨args, inF, outF, true⟩ true sys).child.stdinTarget =
        some (inF.getD devNull) ∧
      (createNewProcess ⟨args, inF, outF, true⟩ true sys).child.stdoutTarget =
        some (outF.getD devNull) := by
  intro args inF outF sys hr hw hd1 hd2
  refine ⟨rfl, rfl, ?_, ?_, ?_⟩ <;>
  · unfold createNewProcess childRun childOutput childExec
    cases hex : sys.execOk <;> simp [hr, hw, hd1, hd2, hex]

/-- Witness for the hypotheses of `fgOnly_downgrade_amended`. -/
theorem fgOnly_downgrade_amended_witness :
    (createNewProcess ⟨[['l', 's']], none, none, true⟩ true sysAllOk).parentWaits = true ∧
    (createNewProcess ⟨[['l', 's']], none, none, true⟩ true sysAllOk).registersBg = false ∧
    (createNewProcess ⟨[['l', 's']], none, none, true⟩ true sysAllOk).child.sigintDefault = true ∧
    (createNewProcess ⟨[['l', 's']], none, none, true⟩ true sysAllOk).child.stdinTarget =
      some ((none : Option (List Char)).getD devNull) ∧
    (createNewProcess ⟨[['l', 's']], none, none, true⟩ true sysAllOk).child.stdoutTarget =
      some ((none : Option (List Char)).getD devNull) :=
  fgOnly_downgrade_amended [['l', 's']] none none sysAllOk
    (fun _ => rfl) (fun _ => rfl) rfl rfl

/-! ## Claim C6 -/

/-- C6: the mode controller is the two-state toggle on the flag (initially
`NORMAL`, i.e. `fgFlag = 0`): delivering the signal twice from any state
returns the flag to its original value, and from the initial state the two
notices printed are the entering notice followed by the exiting notice. -/
theorem handle_SIGTSTP_double_toggle :
    (∀ fg, (toggleTwice fg).1 = fg) ∧
    (toggleTwice fgFlagInit).2 = [enterMessage, exitMessage] := by
  constructor
  · intro fg; cases fg <;> rfl
  · rfl

/-! ## Claim C7 -/

/-- C7: the empty line and `#`-lines are rejected by the input filter
(no-op, re-prompt), but a whitespace-only line such as `" \n"` passes the
filter while yielding no token at all — the subsequent tokenization then
reads a first token that does not exist (`strlen(NULL)` in the C source). -/
theorem whitespace_line_passes_filter_without_token :
    acceptLine ['\n'] = false ∧
    acceptLine ['#', ' ', 'c', '\n'] = false ∧
    acceptLine [' ', '\n'] = true ∧
    splitTokens (stripNewline [' ', '\n']) = [] := by decide

/-! ## Claim C8 -/

/-- C8: the reap pass is a no-op on a table with zero outstanding processes;
in general it frees exactly the slots whose process is observed terminated
and reports each of them (exit value or signal); and in the prompt loop
every prompt is immediately preceded by exactly one reap invocation.  (The
pass never blocks: it is modelled as a total function of the `WNOHANG`
oracle, which answers immediately for every pid.) -/
theorem reap_noop_reports_and_precedes_prompt :
    (∀ (term : Nat → Option PStatus) (n : Nat),
      checkBackgroundProcessTermination term (List.replicate n 0) =
        (List.replicate n 0, [])) ∧
    (∀ (term : Nat → Option PStatus) (table : List Nat),
      checkBackgroundProcessTermination term table =
        (table.map fun p => if p ≠ 0 ∧ (term p).isSome then 0 else p,
         table.filterMap fun p =>
           if p ≠ 0 then (term p).map (reapMsg p) else none)) ∧
    (∀ lines, isReapPromptBlocks (readLoopTrace lines) = true) := by
  refine ⟨?_, ?_, ?_⟩
  · intro term n
    induction n with
    | zero => rfl
    | succ n ih => simp [List.replicate_succ, checkBackgroundProcessTermination, ih]
  · intro term table
    induction table with
    | nil => rfl
    | cons p rest ih =>
      by_cases hp : p = 0
      · simp [checkBackgroundProcessTermination, hp, ih]
      · cases hterm : term p <;>
          simp [checkBackgroundProcessTermination, hp, hterm, ih]
  · intro lines
    induction lines with
    | nil => rfl
    | cons line rest ih =>
      by_cases h : acceptLine line <;>
        simp [readLoopTrace, h, isReapPromptBlocks, ih]

/-! ## Claim C9 -/

/-- C9: the recorded foreground exit status is written only by the
foreground wait; `cd`, `status`, background registration and background
reaping all leave it unchanged, so `status` output is unaffected by any
sequence of those operations occurring between foreground commands. -/
theorem exitStatus_untouched_by_nonforeground :
    (∀ (op : NonFgOp) (s : Shell), (applyNonFg op s).exitStatus = s.exitStatus) ∧
    (∀ (ops : List NonFgOp) (s : Shell),
      printShellStatus (ops.foldl (fun s op => applyNonFg op s) s) =
        printShellStatus s) ∧
    (∀ (status : Nat) (s : Shell),
      ((waitForegroundOp status s).1).exitStatus = status) := by
  have hcd : ∀ (canEnter : List Char → Bool) (home : Option (List Char))
      (args : List (List Char)) (s : Shell),
      ((changeShellDirectory canEnter home args s).1).exitStatus = s.exitStatus := by
    intro canEnter home args s
    unfold changeShellDirectory
    rcases h : args.get? 1 with - | p
    · rcases home with - | h'
      · simp [h]
      · simp [h]
    · simp [h]
  have hop : ∀ (op : NonFgOp) (s : Shell),
      (applyNonFg op s).exitStatus = s.exitStatus := by
    intro op s
    cases op with
    | statusCmd => rfl
    | cd canEnter home args => exact hcd canEnter home args s
    | registerBgJob pid => rfl
    | reap term => rfl
  refine ⟨hop, ?_, fun _ _ => rfl⟩
  intro ops
  induction ops with
  | nil => intro s; rfl
  | cons op ops ih =>
    intro s
    calc printShellStatus (List.foldl (fun s op => applyNonFg op s) (applyNonFg op s) ops)
        = printShellStatus (applyNonFg op s) := ih (applyNonFg op s)
      _ = printShellStatus s := by
          unfold printShellStatus
          rw [hop op s]

/-! ## Claim C10 -/

/-- C10: when `cd` is given a path that cannot be entered, or no argument
while `HOME` is unset, the working directory is left unchanged, nothing is
printed, and the shell state is returned exactly as it was. -/
theorem cd_failure_silent_noop :
    (∀ (canEnter : List Char → Bool) (home : Option (List Char))
        (args : List (List Char)) (s : Shell) (p : List Char),
      args.get? 1 = some p → canEnter p = false →
      changeShellDirectory canEnter home args s = (s, [])) ∧
    (∀ (canEnter : List Char → Bool) (args : List (List Char)) (s : Shell),
      args.get? 1 = none →
      changeShellDirectory canEnter none args s = (s, [])) := by
  constructor
  · intro canEnter home args s p hp hc
    unfold changeShellDirectory
    rw [hp]
    simp [hc]
  · intro canEnter args s hargs
    unfold changeShellDirectory
    rw [hargs]

/-- Witness for the hypotheses of `cd_failure_silent_noop`. -/
theorem cd_failure_silent_noop_witness :
    changeShellDirectory (fun _ => false) (some ['h']) [['c', 'd'], ['x']]
        ⟨0, initialBgTable, ['/']⟩ = (⟨0, initialBgTable, ['/']⟩, []) ∧
    changeShellDirectory (fun _ => true) none [['c', 'd']]
        ⟨0, initialBgTable, ['/']⟩ = (⟨0, initialBgTable, ['/']⟩, []) :=
  ⟨cd_failure_silent_noop.1 (fun _ => false) (some ['h']) [['c', 'd'], ['x']]
      ⟨0, initialBgTable, ['/']⟩ ['x'] rfl rfl,
   cd_failure_silent_noop.2 (fun _ => true) [['c', 'd']]
      ⟨0, initialBgTable, ['/']⟩ rfl⟩

end SmallSh


namespace SmallSh

/-! ## Claim C5: characterization of the extraction loop -/

theorem classifyAux_nil (x : Nat) (st : ExtractState) :
    classifyAux x st [] = some st := rfl

theorem classifyAux_lt (x : Nat) (st : ExtractState) (r0 : List Char)
    (rest : List (List Char)) :
    classifyAux x st (['<'] :: r0 :: rest) =
      classifyAux (x + 1)
        { st with ioStart := updIOstart st.ioStart x, inputFile := some r0 }
        (r0 :: rest) := rfl

theorem classifyAux_lt_last (x : Nat) (st : ExtractState) :
    classifyAux x st [['<']] = none := rfl

theorem classifyAux_gt (x : Nat) (st : ExtractState) (r0 : List Char)
    (rest : List (List Char)) :
    classifyAux x st (['>'] :: r0 :: rest) =
      classifyAux (x + 1)
        { st with ioStart := updIOstart st.ioStart x, outputFile := some r0 }
        (r0 :: rest) := rfl

theorem classifyAux_gt_last (x : Nat) (st : ExtractState) :
    classifyAux x st [['>']] = none := rfl

theorem classifyAux_amp_last (x : Nat) (st : ExtractState) :
    classifyAux x st [['&']] = some { st with bgFlag := true } := rfl

theorem classifyAux_other (x : Nat) (st : ExtractState) (tok : List Char)
    (rest : List (List Char)) (h1 : tok ≠ ['<']) (h2 : tok ≠ ['>'])
    (h3 : ¬(tok = ['&'] ∧ rest = [])) :
    classifyAux x st (tok :: rest) = classifyAux (x + 1) st rest := by
  conv_lhs => unfold classifyAux
  simp [h1, h2, h3]

theorem updIOstart_eq (s x : Nat) (hinv : s = 0 ∨ s ≤ x) :
    updIOstart s x = if s = 0 then x else s := by
  unfold updIOstart
  rcases eq_or_ne s 0 with h0 | h0
  · simp [h0]
  · have hle : s ≤ x := by
      rcases hinv with h | h
      · exact absurd h h0
      · exact h
    have hlt : ¬ x < s := by omega
    simp [h0, hlt]

theorem updIOstart_inv (s x : Nat) (hinv : s = 0 ∨ s ≤ x) :
    updIOstart s x = 0 ∨ updIOstart s x ≤ x + 1 := by
  rw [updIOstart_eq s x hinv]
  rcases eq_or_ne s 0 with h0 | h0
  · rw [if_pos h0]
    omega
  · rw [if_neg h0]
    rcases hinv with h | h
    · exact absurd h h0
    · omega

/-- A found operator position is never 0. -/
theorem firstOpAbs_pos : ∀ (l : List (List Char)) (x p : Nat),
    firstOpAbs x l = some p → 1 ≤ p := by
  intro l
  induction l with
  | nil => intro x p h; cases h
  | cons t rest ih =>
    intro x p h
    unfold firstOpAbs at h
    by_cases hc : (isOp t && decide (1 ≤ x)) = true
    · rw [if_pos hc] at h
      obtain rfl := Option.some.inj h
      simp only [Bool.and_eq_true, decide_eq_true_eq] at hc
      exact hc.2
    · rw [if_neg hc] at h
      exact ih (x + 1) p h

/-- Invariant characterization of the classification loop: on success the
final background flag records whether the last token is `"&"`, and the
final `IOstart` is the position of the first redirection operator sitting
at an absolute index ≥ 1 (assigning the sentinel value 0 at an operator in
position 0 leaves it invisible), or 0 when there is none. -/
theorem classifyAux_spec : ∀ (suffix : List (List Char)) (x : Nat)
    (st st' : ExtractState),
    classifyAux x st suffix = some st' →
    st.ioStart = 0 ∨ st.ioStart ≤ x →
    st'.bgFlag = (st.bgFlag || (suffix.getLast? == some ['&'])) ∧
    st'.ioStart =
      (if st.ioStart ≠ 0 then st.ioStart else (firstOpAbs x suffix).getD 0) := by
  intro suffix
  induction suffix with
  | nil =>
    intro x st st' h hinv
    rw [classifyAux_nil] at h
    obtain rfl := Option.some.inj h
    refine ⟨by simp, ?_⟩
    rcases eq_or_ne st.ioStart 0 with h0 | h0 <;> simp [firstOpAbs, h0]
  | cons tok rest ih =>
    intro x st st' h hinv
    by_cases h1 : tok = ['<']
    · subst h1
      rcases rest with - | ⟨r0, rest'⟩
      · rw [classifyAux_lt_last] at h
        cases h
      · rw [classifyAux_lt] at h
        obtain ⟨hbg, hio⟩ := ih (x + 1) _ st' h (by
          show updIOstart st.ioStart x = 0 ∨ updIOstart st.ioStart x ≤ x + 1
          exact updIOstart_inv _ _ hinv)
        refine ⟨?_, ?_⟩
        · rw [List.getLast?_cons_cons]
          exact hbg
        · rw [hio]
          show (if updIOstart st.ioStart x ≠ 0 then updIOstart st.ioStart x
                else (firstOpAbs (x + 1) (r0 :: rest')).getD 0) = _
          rw [updIOstart_eq _ _ hinv]
          by_cases h0 : st.ioStart = 0
          · by_cases hx : x = 0
            · subst hx
              simp [firstOpAbs, isOp, h0]
            · have hx1 : 1 ≤ x := by omega
              simp [firstOpAbs, isOp, h0, hx, hx1]
          · simp [firstOpAbs, isOp, h0]
    · by_cases h2 : tok = ['>']
      · subst h2
        rcases rest with - | ⟨r0, rest'⟩
        · rw [classifyAux_gt_last] at h
          cases h
        · rw [classifyAux_gt] at h
          obtain ⟨hbg, hio⟩ := ih (x + 1) _ st' h (by
            show updIOstart st.ioStart x = 0 ∨ updIOstart st.ioStart x ≤ x + 1
            exact updIOstart_inv _ _ hinv)
          refine ⟨?_, ?_⟩
          · rw [List.getLast?_cons_cons]
            exact hbg
          · rw [hio]
            show (if updIOstart st.ioStart x ≠ 0 then updIOstart st.ioStart x
                  else (firstOpAbs (x + 1) (r0 :: rest')).getD 0) = _
            rw [updIOstart_eq _ _ hinv]
            by_cases h0 : st.ioStart = 0
            · by_cases hx : x = 0
              · subst hx
                simp [firstOpAbs, isOp, h0]
              · have hx1 : 1 ≤ x := by omega
                simp [firstOpAbs, isOp, h0, hx, hx1]
            · simp [firstOpAbs, isOp, h0]
      · by_cases h3 : tok = ['&'] ∧ rest = []
        · obtain ⟨rfl, rfl⟩ := h3
          rw [classifyAux_amp_last] at h
          obtain rfl := Option.some.inj h
          refine ⟨by simp, ?_⟩
          show st.ioStart = _
          rcases eq_or_ne st.ioStart 0 with h0 | h0 <;>
            simp [firstOpAbs, isOp, h0]
        · rw [classifyAux_other x st tok rest h1 h2 h3] at h
          obtain ⟨hbg, hio⟩ := ih (x + 1) st st' h (by
            rcases hinv with h0 | h0
            · exact Or.inl h0
            · exact Or.inr (by omega))
          have hopf : isOp tok = false := by
            simp [isOp, h1, h2]
          refine ⟨?_, ?_⟩
          · rw [hbg]
            rcases rest with - | ⟨r0, rest'⟩
            · have htok : tok ≠ ['&'] := fun hh => h3 ⟨hh, rfl⟩
              simp [htok]
            · rw [List.getLast?_cons_cons]
          · rw [hio]
            simp [firstOpAbs, hopf]

end SmallSh

namespace SmallSh

/-- C5 counterexample: with the token sequence `< f a` the first recognized
operator is in position 0, so nothing is truncated and the exec vector
handed to `execvp` still contains the `<` operator (and the tokens after
it), contradicting the claim. -/
theorem extract_operator_at_position_zero_kept :
    (extractCommand [['<'], ['f'], ['a']]).map Command.execArgs =
      some [['<'], ['f'], ['a']] ∧
    ['<'] ∈ [['<'], ['f'], ['a']] := by decide

/-- C5 (amended): the exec vector equals the original tokens minus a
final-position `&`, truncated at the first `<`/`>` operator occurring at a
position ≥ 1; an operator in position 0 hits the `IOstart == 0` sentinel,
is never treated as a truncation point, and remains in the exec vector
(together with the following tokens when no later operator exists). -/
theorem extract_truncation_amended :
    ∀ (args : List (List Char)) (c : Command), extractCommand args = some c →
      c.execArgs = execVectorSpec args ∧
      c.bgFlag = (args.getLast? == some ['&']) := by
  intro args c h
  unfold extractCommand at h
  rcases hcl : classifyAux 0 ⟨none, none, false, 0⟩ args with - | st
  · rw [hcl] at h
    cases h
  · rw [hcl] at h
    obtain ⟨hbg, hio⟩ := classifyAux_spec args 0 _ st hcl (Or.inl rfl)
    simp only [Bool.false_or, ne_eq, not_true_eq_false, if_false] at hbg hio
    injection h with h'
    subst h'
    refine ⟨?_, hbg⟩
    show (if st.ioStart ≠ 0 then
            (if st.bgFlag then args.dropLast else args).take st.ioStart
          else (if st.bgFlag then args.dropLast else args)) = execVectorSpec args
    unfold execVectorSpec
    rw [hio, hbg]
    rcases hop : firstOpAbs 0 args with - | p
    · simp [hop]
    · have hp : 1 ≤ p := firstOpAbs_pos args 0 p hop
      have hp0 : p ≠ 0 := by omega
      simp [hop, hp0]

/-- Witness for the hypothesis of `extract_truncation_amended`. -/
theorem extract_truncation_amended_witness :
    ({ execArgs := [['a']], inputFile := some ['f'], outputFile := none,
       bgFlag := false } : Command).execArgs =
      execVectorSpec [['a'], ['<'], ['f']] ∧
    ({ execArgs := [['a']], inputFile := some ['f'], outputFile := none,
       bgFlag := false } : Command).bgFlag =
      ([['a'], ['<'], ['f']].getLast? == some ['&']) :=
  extract_truncation_amended [['a'], ['<'], ['f']] _ (by decide)

end SmallSh
